import Mathlib

/-!
Horvitz–Thompson variance helpers (`src/horvitz_thompson_helper.cpp`)

A shallow embedding of the numerical kernels of `horvitz_thompson_helper.cpp`
over exact rational arithmetic, and theorems about them.

* A C++ `double` that is the input of a kernel is a rational number (`ℚ`).
* Every C++ division is the guarded division `safeDiv`, which has no result
  (`none`) when the divisor is zero.  A kernel that divides therefore returns
  `Option ℚ`; a kernel that never divides returns `ℚ`.
* A C++ `for (int k = lo; k < hi; ++k)` loop is `forLoop lo hi body s`
  (or `forLoopM` when the body can fail), which threads the loop state
  through the iterations in increasing order of `k`.
* `Eigen::VectorXd` / `Eigen::MatrixXd` are a size together with the
  coefficient accessor `coeff`, mirroring `y.size()`, `y(i)` and `p(i, j)`.
* The `int` loop counters and dimensions are natural numbers: a dimension for
  which `int` would overflow needs a matrix far larger than addressable memory.
-/

namespace HT

/-! ## Loops -/

/-- Runs `body i`, `body (i+1)`, … for `cnt` consecutive indices. -/
def loopFrom {σ : Type} : Nat → Nat → (Nat → σ → σ) → σ → σ
  | 0, _, _, s => s
  | cnt + 1, i, body, s => loopFrom cnt (i + 1) body (body i s)

/-- The loop `for (int k = lo; k < hi; ++k) s = body k s`. -/
def forLoop {σ : Type} (lo hi : Nat) (body : Nat → σ → σ) (s : σ) : σ :=
  loopFrom (hi - lo) lo body s

/-- Runs a fallible body for `cnt` consecutive indices; the first failure aborts the loop. -/
def loopFromM {σ : Type} : Nat → Nat → (Nat → σ → Option σ) → σ → Option σ
  | 0, _, _, s => some s
  | cnt + 1, i, body, s => (body i s).bind (loopFromM cnt (i + 1) body)

/-- The loop `for (int k = lo; k < hi; ++k)` with a body that can fail. -/
def forLoopM {σ : Type} (lo hi : Nat) (body : Nat → σ → Option σ) (s : σ) : Option σ :=
  loopFromM (hi - lo) lo body s

/-! ## Data model -/

/-- Guarded division: no result when the divisor is zero. -/
def safeDiv (a b : ℚ) : Option ℚ :=
  if b = 0 then none else some (a / b)

/-- An `Eigen::VectorXd`: `size()` and the accessor `y(i)`. -/
structure VectorXd where
  size : Nat
  coeff : Nat → ℚ

/-- An `Eigen::MatrixXd` of numbers: `rows()`, `cols()` and the accessor `p(i, j)`. -/
structure MatrixXd where
  rows : Nat
  cols : Nat
  coeff : Nat → Nat → ℚ

/-- A vector given by the list of its coefficients. -/
def VectorXd.ofList (l : List ℚ) : VectorXd :=
  ⟨l.length, fun i => l.getD i 0⟩

/-- A matrix given by the list of its rows. -/
def MatrixXd.ofRows (r c : Nat) (l : List (List ℚ)) : MatrixXd :=
  ⟨r, c, fun i j => (l.getD i []).getD j 0⟩

/-- A matrix under construction, as `gen_pr_matrix_complete` builds it.  A cell is
`none` while it holds no defined number: before it is first written (the
constructor `MatrixXd pr_mat(2*n, 2*n)` leaves the cells uninitialised), or
after the result of a division by zero was stored in it. -/
structure PrMatrix where
  rows : Nat
  cols : Nat
  coeff : Nat → Nat → Option ℚ

/-- The constructor `Eigen::MatrixXd pr_mat(r, c)`: no cell is initialised. -/
def PrMatrix.alloc (r c : Nat) : PrMatrix :=
  ⟨r, c, fun _ _ => none⟩

/-- The assignment `pr_mat(r, c) = v`. -/
def PrMatrix.set (m : PrMatrix) (r c : Nat) (v : Option ℚ) : PrMatrix :=
  { m with coeff := fun a b => if a = r ∧ b = c then v else m.coeff a b }

/-! ## The kernels -/

/-- The kernel `ht_var`: `return (p1p2 - p1 * p2) * y1 * y2;` -/
def ht_var (p1p2 p1 p2 y1 y2 : ℚ) : ℚ :=
  (p1p2 - p1 * p2) * y1 * y2

/-- The kernel `ht_var_total`: both loops run over `0 .. y.size()`. -/
def ht_var_total (y : VectorXd) (p : MatrixXd) : ℚ :=
  forLoop 0 y.size (fun i total_variance =>
    forLoop 0 y.size (fun j total_variance =>
      total_variance +
        ht_var (p.coeff i j) (p.coeff i i) (p.coeff j j) (y.coeff i) (y.coeff j))
      total_variance) 0

/-- The kernel `ht_covar_partial`: `i` runs over `y1`, `j` over `y0`; the division
by `p10(i, j)` is guarded. -/
def ht_covar_partial (y1 y0 : VectorXd) (p10 : MatrixXd) (p1 p0 : VectorXd) : Option ℚ :=
  forLoopM 0 y1.size (fun i cov_total =>
    forLoopM 0 y0.size (fun j cov_total =>
      if p10.coeff i j = 0 then
        some (cov_total +
          y1.coeff i * y0.coeff j * (p10.coeff i j - p1.coeff i * p0.coeff j))
      else
        (safeDiv (y1.coeff i * y0.coeff j * (p10.coeff i j - p1.coeff i * p0.coeff j))
          (p10.coeff i j)).bind (fun q => some (cov_total + q)))
      cov_total) 0

/-- The kernel `ht_var_partial`: the diagonal is skipped, every division (by
`p(i, j)` and by the literal `2.0`) is guarded. -/
def ht_var_partial (y : VectorXd) (p : MatrixXd) : Option ℚ :=
  forLoopM 0 y.size (fun i var_total =>
    forLoopM 0 y.size (fun j var_total =>
      if i ≠ j then
        if p.coeff i j = 0 then
          (safeDiv (y.coeff i ^ 2 * p.coeff i i) 2).bind (fun a =>
            (safeDiv (y.coeff j ^ 2 * p.coeff j j) 2).bind (fun b =>
              some (var_total +
                (y.coeff i * y.coeff j * (p.coeff i j - p.coeff i i * p.coeff j j) + a + b))))
        else
          (safeDiv (y.coeff i * y.coeff j * (p.coeff i j - p.coeff i i * p.coeff j j))
            (p.coeff i j)).bind (fun q => some (var_total + q))
      else some var_total)
      var_total) 0

/-- The kernel `ht_covar_total`: both loops run over `0 .. y0.size()`, the diagonal is skipped. -/
def ht_covar_total (y0 y1 : VectorXd) (p00 p11 pj : MatrixXd) : ℚ :=
  forLoop 0 y0.size (fun i cov_total =>
    forLoop 0 y0.size (fun j cov_total =>
      if i ≠ j then
        cov_total +
          ht_var (pj.coeff i j) (p00.coeff i i) (p11.coeff j j) (y0.coeff i) (y1.coeff j)
      else cov_total)
      cov_total) 0

/-- The kernel `joint_incl_pr`: `return pi * ((pj * ntotal - same) / (ntotal - 1));`
with the division guarded. -/
def joint_incl_pr (pi pj : ℚ) (same : Int) (ntotal : ℚ) : Option ℚ :=
  (safeDiv (pj * ntotal - (same : ℚ)) (ntotal - 1)).bind (fun q => some (pi * q))

/-- The body of the inner loop of `gen_pr_matrix_complete` for the pair `(i, j)`:
four assignments, in the order of the source. -/
def gen_pr_cell (prs : VectorXd) (n i j : Nat) (pr_mat : PrMatrix) : PrMatrix :=
  if i = j then
    (((pr_mat.set i j (some (1 - prs.coeff i))).set (i + n) j (some 0)).set i (j + n)
      (some 0)).set (i + n) (j + n) (some (prs.coeff i))
  else
    (((pr_mat.set i j (joint_incl_pr (1 - prs.coeff i) (1 - prs.coeff j) 1 n)).set (i + n) j
      (joint_incl_pr (prs.coeff i) (1 - prs.coeff j) 0 n)).set i (j + n)
      (joint_incl_pr (1 - prs.coeff i) (prs.coeff j) 0 n)).set (i + n) (j + n)
      (joint_incl_pr (prs.coeff i) (prs.coeff j) 1 n)

/-- The kernel `gen_pr_matrix_complete`. -/
def gen_pr_matrix_complete (prs : VectorXd) : PrMatrix :=
  let n := prs.size
  forLoop 0 n (fun i pr_mat =>
    forLoop 0 n (fun j pr_mat => gen_pr_cell prs n i j pr_mat) pr_mat)
    (PrMatrix.alloc (2 * n) (2 * n))

/-- The kernel `ht_var_total2`: the inner loop starts at `j = i`; the state is the
pair `(upper_triangle_variance, diag_variance)`. -/
def ht_var_total2 (y : VectorXd) (p : MatrixXd) : ℚ :=
  let s := forLoop 0 y.size (fun i s =>
    forLoop i y.size (fun j s =>
      let temp_var :=
        ht_var (p.coeff i j) (p.coeff i i) (p.coeff j j) (y.coeff i) (y.coeff j)
      if i = j then (s.1, s.2 + temp_var) else (s.1 + temp_var, s.2))
      s) ((0 : ℚ), (0 : ℚ))
  s.2 + 2 * s.1

/-! ## Closed forms used in the statements -/

/-- The pairwise term of `ht_var_total` and `ht_var_total2` for the pair `(i, j)`. -/
def pairTerm (y : VectorXd) (p : MatrixXd) (i j : Nat) : ℚ :=
  ht_var (p.coeff i j) (p.coeff i i) (p.coeff j j) (y.coeff i) (y.coeff j)

/-- The alternate formulation in the words of the specification: the diagonal sum
plus twice the sum over the strict upper triangle. -/
def diagPlusTwiceUpper (y : VectorXd) (p : MatrixXd) : ℚ :=
  ∑ i in Finset.range y.size, pairTerm y p i i +
    2 * ∑ i in Finset.range y.size, ∑ j in Finset.Ico (i + 1) y.size, pairTerm y p i j

/-- The term of `ht_var_partial` for an off-diagonal pair `(i, j)`: the ratio form when
`p[i][j] ≠ 0`, the additive form when `p[i][j] = 0`. -/
def varPartialTerm (y : VectorXd) (p : MatrixXd) (i j : Nat) : ℚ :=
  if p.coeff i j = 0 then
    y.coeff i * y.coeff j * (p.coeff i j - p.coeff i i * p.coeff j j) +
      y.coeff i ^ 2 * p.coeff i i / 2 + y.coeff j ^ 2 * p.coeff j j / 2
  else
    y.coeff i * y.coeff j * (p.coeff i j - p.coeff i i * p.coeff j j) / p.coeff i j

/-- The term of `ht_covar_partial` for the pair `(i, j)`: the numerator divided by
`p10[i][j]` when that is non-zero, the undivided numerator otherwise. -/
def covarPartialTerm (y1 y0 : VectorXd) (p10 : MatrixXd) (p1 p0 : VectorXd) (i j : Nat) : ℚ :=
  if p10.coeff i j = 0 then
    y1.coeff i * y0.coeff j * (p10.coeff i j - p1.coeff i * p0.coeff j)
  else
    y1.coeff i * y0.coeff j * (p10.coeff i j - p1.coeff i * p0.coeff j) / p10.coeff i j

/-- The ordered pairs `(i, j)` with `i, j < n` and `i ≠ j`. -/
def offDiag (n : Nat) : Finset (Nat × Nat) :=
  (Finset.range n ×ˢ Finset.range n).filter (fun q => q.1 ≠ q.2)

/-- The four cells that the pair `(i, j)` owns in the matrix `m` hold the values that
the body of `gen_pr_matrix_complete` assigns for that pair. -/
def cellOK (prs : VectorXd) (n i j : Nat) (m : PrMatrix) : Prop :=
  m.coeff i j =
    (if i = j then some (1 - prs.coeff i)
      else joint_incl_pr (1 - prs.coeff i) (1 - prs.coeff j) 1 n) ∧
  m.coeff (i + n) j =
    (if i = j then some 0 else joint_incl_pr (prs.coeff i) (1 - prs.coeff j) 0 n) ∧
  m.coeff i (j + n) =
    (if i = j then some 0 else joint_incl_pr (1 - prs.coeff i) (prs.coeff j) 0 n) ∧
  m.coeff (i + n) (j + n) =
    (if i = j then some (prs.coeff i) else joint_incl_pr (prs.coeff i) (prs.coeff j) 1 n)

/-- The outcome vector `c·y`: every outcome of `y` scaled by the constant `c`. -/
def VectorXd.scale (c : ℚ) (y : VectorXd) : VectorXd :=
  ⟨y.size, fun i => c * y.coeff i⟩

/-! ## Loop lemmas -/

theorem loopFrom_add (f : Nat → ℚ) (cnt i : Nat) (s : ℚ) :
    loopFrom cnt i (fun k acc => acc + f k) s = s + ∑ k in Finset.range cnt, f (i + k) := by
  induction cnt generalizing i s with
  | zero => simp [loopFrom]
  | succ cnt ih =>
    rw [loopFrom, ih, Finset.sum_range_succ', add_assoc]
    congr 1
    rw [add_comm]
    congr 1
    · apply Finset.sum_congr rfl
      intro k _
      congr 1
      omega

theorem forLoop_zero_add (f : Nat → ℚ) (n : Nat) (s : ℚ) :
    forLoop 0 n (fun k acc => acc + f k) s = s + ∑ k in Finset.range n, f k := by
  simp [forLoop, loopFrom_add]

theorem ht_var_total_eq (y : VectorXd) (p : MatrixXd) :
    ht_var_total y p =
      ∑ i in Finset.range y.size, ∑ j in Finset.range y.size,
        (p.coeff i j - p.coeff i i * p.coeff j j) * y.coeff i * y.coeff j := by
  unfold ht_var_total
  simp only [forLoop_zero_add, ht_var, zero_add]

theorem loopFrom_pair (a b : Nat → ℚ) (cnt i : Nat) (s : ℚ × ℚ) :
    loopFrom cnt i (fun k s => (s.1 + a k, s.2 + b k)) s =
      (s.1 + ∑ k in Finset.range cnt, a (i + k), s.2 + ∑ k in Finset.range cnt, b (i + k)) := by
  induction cnt generalizing i s with
  | zero => simp [loopFrom]
  | succ cnt ih =>
    rw [loopFrom, ih, Finset.sum_range_succ', Finset.sum_range_succ']
    have h : ∀ (g : Nat → ℚ), ∑ k in Finset.range cnt, g (i + 1 + k) =
        ∑ k in Finset.range cnt, g (i + (k + 1)) := by
      intro g
      apply Finset.sum_congr rfl
      intro k _
      congr 1
      omega
    rw [h a, h b]
    ext <;> simp <;> ring

theorem forLoop_pair (a b : Nat → ℚ) (lo hi : Nat) (s : ℚ × ℚ) :
    forLoop lo hi (fun k s => (s.1 + a k, s.2 + b k)) s =
      (s.1 + ∑ k in Finset.Ico lo hi, a k, s.2 + ∑ k in Finset.Ico lo hi, b k) := by
  rw [forLoop, loopFrom_pair, Finset.sum_Ico_eq_sum_range, Finset.sum_Ico_eq_sum_range]

theorem ht_var_total2_eq (y : VectorXd) (p : MatrixXd) :
    ht_var_total2 y p = diagPlusTwiceUpper y p := by
  have inner : ∀ (i : Nat) (s : ℚ × ℚ),
      forLoop i y.size (fun j s =>
        let temp_var :=
          ht_var (p.coeff i j) (p.coeff i i) (p.coeff j j) (y.coeff i) (y.coeff j)
        if i = j then (s.1, s.2 + temp_var) else (s.1 + temp_var, s.2)) s =
      (s.1 + ∑ j in Finset.Ico i y.size, (if i = j then 0 else pairTerm y p i j),
        s.2 + ∑ j in Finset.Ico i y.size, (if i = j then pairTerm y p i j else 0)) := by
    intro i s
    rw [← forLoop_pair]
    congr 1
    funext j s
    by_cases h : i = j <;> simp [h, pairTerm]
  unfold ht_var_total2
  simp only [inner]
  rw [forLoop_pair]
  simp only [zero_add, diagPlusTwiceUpper, Finset.range_eq_Ico]
  congr 1
  · apply Finset.sum_congr rfl
    intro i hi
    rw [Finset.sum_ite_eq]
    simp only [Finset.mem_Ico] at hi ⊢
    simp [hi.2]
  · congr 1
    apply Finset.sum_congr rfl
    intro i hi
    simp only [Finset.mem_Ico] at hi
    rw [Finset.sum_eq_sum_Ico_succ_bot hi.2]
    simp only [if_true, zero_add]
    apply Finset.sum_congr rfl
    intro j hj
    simp only [Finset.mem_Ico] at hj
    have : i ≠ j := by omega
    simp [this]

theorem sum_square_eq_diag_add_upper (f : Nat → Nat → ℚ) (n : Nat)
    (hsym : ∀ i j, i < n → j < n → f i j = f j i) :
    ∑ i in Finset.range n, ∑ j in Finset.range n, f i j =
      ∑ i in Finset.range n, f i i +
        2 * ∑ i in Finset.range n, ∑ j in Finset.Ico (i + 1) n, f i j := by
  induction n with
  | zero => simp
  | succ n ih =>
    have ih2 := ih (fun i j hi hj => hsym i j (by omega) (by omega))
    have hrow : ∑ j in Finset.range n, f n j = ∑ i in Finset.range n, f i n := by
      apply Finset.sum_congr rfl
      intro j hj
      simp only [Finset.mem_range] at hj
      exact hsym n j (by omega) (by omega)
    have hup : ∑ i in Finset.range n, ∑ j in Finset.Ico (i + 1) (n + 1), f i j =
        ∑ i in Finset.range n, ∑ j in Finset.Ico (i + 1) n, f i j +
          ∑ i in Finset.range n, f i n := by
      rw [← Finset.sum_add_distrib]
      apply Finset.sum_congr rfl
      intro i hi
      simp only [Finset.mem_range] at hi
      rw [Finset.sum_Ico_succ_top (by omega)]
    have hsq : ∑ i in Finset.range n, ∑ j in Finset.range (n + 1), f i j =
        ∑ i in Finset.range n, ∑ j in Finset.range n, f i j +
          ∑ i in Finset.range n, f i n := by
      rw [← Finset.sum_add_distrib]
      apply Finset.sum_congr rfl
      intro i _
      rw [Finset.sum_range_succ]
    rw [Finset.sum_range_succ, hsq, Finset.sum_range_succ (fun j => f n j), hrow, ih2,
      Finset.sum_range_succ (fun i => f i i),
      Finset.sum_range_succ (fun i => ∑ j in Finset.Ico (i + 1) (n + 1), f i j), hup]
    simp only [Finset.Ico_self, Finset.sum_empty]
    ring

theorem pairTerm_symm (y : VectorXd) (p : MatrixXd) (i j : Nat)
    (h : p.coeff i j = p.coeff j i) : pairTerm y p i j = pairTerm y p j i := by
  simp only [pairTerm, ht_var, h]
  ring

theorem ht_var_total_eq_pairTerm (y : VectorXd) (p : MatrixXd) :
    ht_var_total y p =
      ∑ i in Finset.range y.size, ∑ j in Finset.range y.size, pairTerm y p i j := by
  rw [ht_var_total_eq]
  simp only [pairTerm, ht_var]

theorem loopFromM_add (f : Nat → ℚ) (cnt i : Nat) (s : ℚ) :
    loopFromM cnt i (fun k acc => some (acc + f k)) s =
      some (s + ∑ k in Finset.range cnt, f (i + k)) := by
  induction cnt generalizing i s with
  | zero => simp [loopFromM]
  | succ cnt ih =>
    rw [loopFromM, Option.some_bind, ih, Finset.sum_range_succ', add_assoc]
    congr 2
    rw [add_comm]
    congr 1
    apply Finset.sum_congr rfl
    intro k _
    congr 1
    omega

theorem forLoopM_zero_add (f : Nat → ℚ) (n : Nat) (s : ℚ) :
    forLoopM 0 n (fun k acc => some (acc + f k)) s = some (s + ∑ k in Finset.range n, f k) := by
  simp [forLoopM, loopFromM_add]

theorem sum_offDiag (f : Nat → Nat → ℚ) (n : Nat) :
    ∑ q in offDiag n, f q.1 q.2 =
      ∑ i in Finset.range n, ∑ j in Finset.range n, (if i ≠ j then f i j else 0) := by
  rw [offDiag, Finset.sum_filter, Finset.sum_product]

theorem ht_var_partial_eq (y : VectorXd) (p : MatrixXd) :
    ht_var_partial y p = some (∑ q in offDiag y.size, varPartialTerm y p q.1 q.2) := by
  have body : ∀ i : Nat,
      (fun (j : Nat) (var_total : ℚ) =>
        if i ≠ j then
          if p.coeff i j = 0 then
            (safeDiv (y.coeff i ^ 2 * p.coeff i i) 2).bind (fun a =>
              (safeDiv (y.coeff j ^ 2 * p.coeff j j) 2).bind (fun b =>
                some (var_total +
                  (y.coeff i * y.coeff j * (p.coeff i j - p.coeff i i * p.coeff j j) + a + b))))
          else
            (safeDiv (y.coeff i * y.coeff j * (p.coeff i j - p.coeff i i * p.coeff j j))
              (p.coeff i j)).bind (fun q => some (var_total + q))
        else some var_total) =
      (fun j var_total => some (var_total + (if i ≠ j then varPartialTerm y p i j else 0))) := by
    intro i
    funext j var_total
    by_cases hij : i = j
    · simp [hij]
    · by_cases hp : p.coeff i j = 0
      · simp [hij, hp, safeDiv, varPartialTerm]
      · simp [hij, hp, safeDiv, varPartialTerm]
  unfold ht_var_partial
  simp only [body, forLoopM_zero_add, zero_add, sum_offDiag]

theorem ht_covar_partial_eq (y1 y0 : VectorXd) (p10 : MatrixXd) (p1 p0 : VectorXd) :
    ht_covar_partial y1 y0 p10 p1 p0 =
      some (∑ i in Finset.range y1.size, ∑ j in Finset.range y0.size,
        covarPartialTerm y1 y0 p10 p1 p0 i j) := by
  have body : ∀ i : Nat,
      (fun (j : Nat) (cov_total : ℚ) =>
        if p10.coeff i j = 0 then
          some (cov_total +
            y1.coeff i * y0.coeff j * (p10.coeff i j - p1.coeff i * p0.coeff j))
        else
          (safeDiv (y1.coeff i * y0.coeff j * (p10.coeff i j - p1.coeff i * p0.coeff j))
            (p10.coeff i j)).bind (fun q => some (cov_total + q))) =
      (fun j cov_total => some (cov_total + covarPartialTerm y1 y0 p10 p1 p0 i j)) := by
    intro i
    funext j cov_total
    by_cases hp : p10.coeff i j = 0
    · simp [hp, covarPartialTerm]
    · simp [hp, safeDiv, covarPartialTerm]
  unfold ht_covar_partial
  simp only [body, forLoopM_zero_add, zero_add]

theorem ht_covar_total_eq (y0 y1 : VectorXd) (p00 p11 pj : MatrixXd) :
    ht_covar_total y0 y1 p00 p11 pj =
      ∑ q in offDiag y0.size,
        ht_var (pj.coeff q.1 q.2) (p00.coeff q.1 q.1) (p11.coeff q.2 q.2)
          (y0.coeff q.1) (y1.coeff q.2) := by
  have body : ∀ i : Nat,
      (fun (j : Nat) (cov_total : ℚ) =>
        if i ≠ j then
          cov_total +
            ht_var (pj.coeff i j) (p00.coeff i i) (p11.coeff j j) (y0.coeff i) (y1.coeff j)
        else cov_total) =
      (fun j cov_total => cov_total + (if i ≠ j then
        ht_var (pj.coeff i j) (p00.coeff i i) (p11.coeff j j) (y0.coeff i) (y1.coeff j)
        else 0)) := by
    intro i
    funext j cov_total
    by_cases hij : i = j <;> simp [hij]
  unfold ht_covar_total
  simp only [body, forLoop_zero_add, zero_add]
  rw [sum_offDiag (fun i j =>
    ht_var (pj.coeff i j) (p00.coeff i i) (p11.coeff j j) (y0.coeff i) (y1.coeff j))]

theorem loopFrom_preserves {σ : Type} (P : σ → Prop) (body : Nat → σ → σ) (cnt i : Nat)
    (s : σ) (h : ∀ k s, i ≤ k → k < i + cnt → P s → P (body k s)) (hs : P s) :
    P (loopFrom cnt i body s) := by
  induction cnt generalizing i s with
  | zero => simpa [loopFrom] using hs
  | succ cnt ih =>
    rw [loopFrom]
    apply ih
    · intro k s hk1 hk2 hP
      exact h k s (by omega) (by omega) hP
    · exact h i s (le_refl i) (by omega) hs

theorem loopFrom_establish {σ : Type} (Q : σ → Prop) (body : Nat → σ → σ) (cnt i k : Nat)
    (s : σ) (hk1 : i ≤ k) (hk2 : k < i + cnt) (hest : ∀ s, Q (body k s))
    (hpres : ∀ k2 s, i ≤ k2 → k2 < i + cnt → k2 ≠ k → Q s → Q (body k2 s)) :
    Q (loopFrom cnt i body s) := by
  induction cnt generalizing i s with
  | zero => omega
  | succ cnt ih =>
    rw [loopFrom]
    by_cases hik : k = i
    · subst hik
      apply loopFrom_preserves
      · intro k2 s hk3 hk4 hQ
        exact hpres k2 s (by omega) (by omega) (by omega) hQ
      · exact hest s
    · apply ih
      · omega
      · omega
      · intro k2 s hk3 hk4 hne hQ
        exact hpres k2 s (by omega) (by omega) hne hQ

theorem set_coeff (m : PrMatrix) (r c : Nat) (v : Option ℚ) (a b : Nat) :
    (m.set r c v).coeff a b = if a = r ∧ b = c then v else m.coeff a b := rfl

theorem gen_pr_cell_frame (prs : VectorXd) (n i j : Nat) (m : PrMatrix) (r c : Nat)
    (h : ¬ ((r = i ∨ r = i + n) ∧ (c = j ∨ c = j + n))) :
    (gen_pr_cell prs n i j m).coeff r c = m.coeff r c := by
  have h1 : ¬ (r = i ∧ c = j) := fun hh => h ⟨Or.inl hh.1, Or.inl hh.2⟩
  have h2 : ¬ (r = i + n ∧ c = j) := fun hh => h ⟨Or.inr hh.1, Or.inl hh.2⟩
  have h3 : ¬ (r = i ∧ c = j + n) := fun hh => h ⟨Or.inl hh.1, Or.inr hh.2⟩
  have h4 : ¬ (r = i + n ∧ c = j + n) := fun hh => h ⟨Or.inr hh.1, Or.inr hh.2⟩
  unfold gen_pr_cell
  split <;> simp only [set_coeff, h1, h2, h3, h4, if_false]

theorem gen_pr_cell_dims (prs : VectorXd) (n i j : Nat) (m : PrMatrix) :
    (gen_pr_cell prs n i j m).rows = m.rows ∧ (gen_pr_cell prs n i j m).cols = m.cols := by
  unfold gen_pr_cell
  split <;> exact ⟨rfl, rfl⟩

theorem gen_pr_cell_establishes (prs : VectorXd) (n i j : Nat) (m : PrMatrix) (hn : 0 < n) :
    cellOK prs n i j (gen_pr_cell prs n i j m) := by
  have e1 : ¬ (i = i + n) := by omega
  have e2 : ¬ (j = j + n) := by omega
  have e3 : ¬ (i + n = i) := by omega
  have e4 : ¬ (j + n = j) := by omega
  unfold cellOK gen_pr_cell
  by_cases hij : i = j
  · simp only [hij, if_true, set_coeff, e2, e4, and_false, false_and, and_self, if_false]
  · simp only [hij, if_false, set_coeff, e1, e2, e3, e4, and_false, false_and, and_self,
      if_true]

theorem gen_pr_cell_preserves (prs : VectorXd) (n i j i2 j2 : Nat) (m : PrMatrix)
    (hi : i < n) (hj : j < n) (hi2 : i2 < n) (hj2 : j2 < n) (hne : ¬ (i2 = i ∧ j2 = j))
    (h : cellOK prs n i j m) : cellOK prs n i j (gen_pr_cell prs n i2 j2 m) := by
  obtain ⟨h1, h2, h3, h4⟩ := h
  refine ⟨?_, ?_, ?_, ?_⟩
  · rw [gen_pr_cell_frame _ _ _ _ _ _ _ (by omega)]
    exact h1
  · rw [gen_pr_cell_frame _ _ _ _ _ _ _ (by omega)]
    exact h2
  · rw [gen_pr_cell_frame _ _ _ _ _ _ _ (by omega)]
    exact h3
  · rw [gen_pr_cell_frame _ _ _ _ _ _ _ (by omega)]
    exact h4

theorem gen_pr_matrix_complete_cellOK (prs : VectorXd) (i j : Nat) (hi : i < prs.size)
    (hj : j < prs.size) : cellOK prs prs.size i j (gen_pr_matrix_complete prs) := by
  unfold gen_pr_matrix_complete
  simp only [forLoop, Nat.sub_zero]
  apply loopFrom_establish (cellOK prs prs.size i j) _ _ 0 i _ (Nat.zero_le i) (by omega)
  · intro m
    apply loopFrom_establish (cellOK prs prs.size i j) _ _ 0 j _ (Nat.zero_le j) (by omega)
    · intro m2
      exact gen_pr_cell_establishes prs prs.size i j m2 (by omega)
    · intro j2 m2 _ hj2 hne hm2
      exact gen_pr_cell_preserves prs prs.size i j i j2 m2 hi hj hi (by omega) (by omega) hm2
  · intro i2 m _ hi2 hne hm
    apply loopFrom_preserves (cellOK prs prs.size i j) _ _ 0 _ _ hm
    intro j2 m2 _ hj2 hm2
    exact gen_pr_cell_preserves prs prs.size i j i2 j2 m2 hi hj (by omega) (by omega)
      (by omega) hm2

theorem gen_pr_matrix_complete_dims (prs : VectorXd) :
    (gen_pr_matrix_complete prs).rows = 2 * prs.size ∧
      (gen_pr_matrix_complete prs).cols = 2 * prs.size := by
  unfold gen_pr_matrix_complete
  simp only [forLoop, Nat.sub_zero]
  apply loopFrom_preserves (fun m : PrMatrix => m.rows = 2 * prs.size ∧ m.cols = 2 * prs.size)
  · intro i m _ _ hm
    apply loopFrom_preserves
      (fun m : PrMatrix => m.rows = 2 * prs.size ∧ m.cols = 2 * prs.size) _ _ _ _ _ hm
    intro j m2 _ _ hm2
    have hd := gen_pr_cell_dims prs prs.size i j m2
    exact ⟨hd.1.trans hm2.1, hd.2.trans hm2.2⟩
  · exact ⟨rfl, rfl⟩

theorem sum_square_eq_diag_add_offDiag (f : Nat → Nat → ℚ) (n : Nat) :
    ∑ i in Finset.range n, ∑ j in Finset.range n, f i j =
      ∑ i in Finset.range n, f i i + ∑ q in offDiag n, f q.1 q.2 := by
  rw [sum_offDiag, ← Finset.sum_add_distrib]
  apply Finset.sum_congr rfl
  intro i hi
  have hsplit : ∀ j, f i j = (if i = j then f i j else 0) + (if i ≠ j then f i j else 0) := by
    intro j
    by_cases h : i = j <;> simp [h]
  calc ∑ j in Finset.range n, f i j
      = ∑ j in Finset.range n,
          ((if i = j then f i j else 0) + (if i ≠ j then f i j else 0)) :=
        Finset.sum_congr rfl (fun j _ => hsplit j)
    _ = ∑ j in Finset.range n, (if i = j then f i j else 0) +
          ∑ j in Finset.range n, (if i ≠ j then f i j else 0) := Finset.sum_add_distrib
    _ = f i i + ∑ j in Finset.range n, (if i ≠ j then f i j else 0) := by
        rw [Finset.sum_ite_eq, if_pos hi]

theorem joint_incl_pr_of_ne_one (pi pj : ℚ) (same : Int) (ntotal : ℚ) (h : ntotal ≠ 1) :
    joint_incl_pr pi pj same ntotal = some (pi * ((pj * ntotal - same) / (ntotal - 1))) := by
  have h2 : ntotal - 1 ≠ 0 := sub_ne_zero.mpr h
  simp [joint_incl_pr, safeDiv, h2]

theorem joint_incl_pr_one (pi pj : ℚ) (same : Int) : joint_incl_pr pi pj same 1 = none := by
  simp [joint_incl_pr, safeDiv]

theorem safeDiv_eq_none_iff (a b : ℚ) : safeDiv a b = none ↔ b = 0 := by
  unfold safeDiv
  split <;> simp [*]

theorem joint_incl_pr_eq_none_iff (pi pj : ℚ) (same : Int) (ntotal : ℚ) :
    joint_incl_pr pi pj same ntotal = none ↔ ntotal = 1 := by
  constructor
  · intro h
    by_contra hne
    rw [joint_incl_pr_of_ne_one pi pj same ntotal hne] at h
    exact Option.noConfusion h
  · intro h
    rw [h]
    exact joint_incl_pr_one pi pj same

theorem joint_incl_pr_complement (pi pj ntotal : ℚ) (h : ntotal ≠ 1) :
    pi * ((pj * ntotal - ((1 : Int) : ℚ)) / (ntotal - 1)) +
      pi * (((1 - pj) * ntotal - ((0 : Int) : ℚ)) / (ntotal - 1)) = pi := by
  have h2 : ntotal - 1 ≠ 0 := sub_ne_zero.mpr h
  push_cast
  field_simp
  ring

theorem ht_var_total_eq_quadratic (y : VectorXd) (p : MatrixXd) :
    ht_var_total y p =
      ∑ i in Finset.range y.size, ∑ j in Finset.range y.size,
          p.coeff i j * y.coeff i * y.coeff j -
        (∑ i in Finset.range y.size, p.coeff i i * y.coeff i) ^ 2 := by
  rw [ht_var_total_eq, sq, Finset.sum_mul_sum, ← Finset.sum_sub_distrib]
  apply Finset.sum_congr rfl
  intro i _
  rw [← Finset.sum_sub_distrib]
  apply Finset.sum_congr rfl
  intro j _
  ring

theorem ht_var_total_scale (c : ℚ) (y : VectorXd) (p : MatrixXd) :
    ht_var_total (VectorXd.scale c y) p = c ^ 2 * ht_var_total y p := by
  rw [ht_var_total_eq, ht_var_total_eq, Finset.mul_sum]
  apply Finset.sum_congr rfl
  intro i _
  rw [Finset.mul_sum]
  apply Finset.sum_congr rfl
  intro j _
  simp only [VectorXd.scale]
  ring

theorem gen_pr_matrix_complete_closed (prs : VectorXd) (i j : Nat) (hi : i < prs.size)
    (hj : j < prs.size) :
    (gen_pr_matrix_complete prs).coeff i j =
      some (if i = j then 1 - prs.coeff i
        else (1 - prs.coeff i) * (((1 - prs.coeff j) * prs.size - 1) / (prs.size - 1))) ∧
    (gen_pr_matrix_complete prs).coeff (i + prs.size) j =
      some (if i = j then 0
        else prs.coeff i * ((1 - prs.coeff j) * prs.size / (prs.size - 1))) ∧
    (gen_pr_matrix_complete prs).coeff i (j + prs.size) =
      some (if i = j then 0
        else (1 - prs.coeff i) * (prs.coeff j * prs.size / (prs.size - 1))) ∧
    (gen_pr_matrix_complete prs).coeff (i + prs.size) (j + prs.size) =
      some (if i = j then prs.coeff i
        else prs.coeff i * ((prs.coeff j * prs.size - 1) / (prs.size - 1))) := by
  obtain ⟨h1, h2, h3, h4⟩ := gen_pr_matrix_complete_cellOK prs i j hi hj
  by_cases hij : i = j
  · simp only [hij, if_true] at h1 h2 h3 h4 ⊢
    exact ⟨h1, h2, h3, h4⟩
  · have hN : (prs.size : ℚ) ≠ 1 := by
      have h2 : prs.size ≠ 1 := by omega
      exact_mod_cast h2
    simp only [hij, if_false, joint_incl_pr_of_ne_one _ _ _ _ hN] at h1 h2 h3 h4 ⊢
    push_cast at h1 h2 h3 h4
    simp only [sub_zero] at h2 h3
    exact ⟨h1, h2, h3, h4⟩

theorem uniform_cells (prs : VectorXd) (m : Nat)
    (hprs : ∀ i, i < prs.size → prs.coeff i = (m : ℚ) / (prs.size : ℚ)) (i j : Nat)
    (hi : i < prs.size) (hj : j < prs.size) (hij : i ≠ j) :
    (gen_pr_matrix_complete prs).coeff (i + prs.size) (j + prs.size) =
      some ((m : ℚ) * ((m : ℚ) - 1) / ((prs.size : ℚ) * ((prs.size : ℚ) - 1))) ∧
    (gen_pr_matrix_complete prs).coeff i j =
      some (((prs.size : ℚ) - m) * ((prs.size : ℚ) - m - 1) /
        ((prs.size : ℚ) * ((prs.size : ℚ) - 1))) ∧
    (gen_pr_matrix_complete prs).coeff (i + prs.size) j =
      some ((m : ℚ) * ((prs.size : ℚ) - m) / ((prs.size : ℚ) * ((prs.size : ℚ) - 1))) ∧
    (gen_pr_matrix_complete prs).coeff i (j + prs.size) =
      some ((m : ℚ) * ((prs.size : ℚ) - m) / ((prs.size : ℚ) * ((prs.size : ℚ) - 1))) := by
  obtain ⟨h1, h2, h3, h4⟩ := gen_pr_matrix_complete_closed prs i j hi hj
  have hn2 : 2 ≤ prs.size := by omega
  have hN : (2 : ℚ) ≤ (prs.size : ℚ) := by exact_mod_cast hn2
  have hN0 : (prs.size : ℚ) ≠ 0 := by linarith
  have hN1 : (prs.size : ℚ) - 1 ≠ 0 := by linarith
  simp only [hij, if_false, hprs i hi, hprs j hj] at h1 h2 h3 h4
  refine ⟨?_, ?_, ?_, ?_⟩
  · rw [h4]
    congr 1
    field_simp
  · rw [h1]
    congr 1
    field_simp
  · rw [h2]
    congr 1
    field_simp
  · rw [h3]
    congr 1
    field_simp
    ring

theorem mul_div_nonneg_iff (x y d : ℚ) (hd : 0 < d) : 0 ≤ x * (y / d) ↔ 0 ≤ x * y := by
  have e : x * (y / d) = x * y / d := by ring
  rw [e]
  constructor
  · intro h
    have h2 := mul_nonneg h hd.le
    rwa [div_mul_cancel₀ _ hd.ne'] at h2
  · intro h
    exact div_nonneg h hd.le

theorem mul_div_le_one_iff (x y d : ℚ) (hd : 0 < d) : x * (y / d) ≤ 1 ↔ x * y ≤ d := by
  have e : x * (y / d) = x * y / d := by ring
  rw [e, div_le_one hd]

theorem mul_nonneg_iff_of_nonneg (x y : ℚ) (hx : 0 ≤ x) : 0 ≤ x * y ↔ x = 0 ∨ 0 ≤ y := by
  constructor
  · intro h
    by_cases hx0 : x = 0
    · exact Or.inl hx0
    · have hpos : 0 < x := lt_of_le_of_ne hx (Ne.symm hx0)
      exact Or.inr (nonneg_of_mul_nonneg_right h hpos)
  · rintro (h | h)
    · rw [h, zero_mul]
    · exact mul_nonneg hx h

/-- For two probabilities `a`, `b` and a population size `N ≥ 2`, the four off-diagonal
cell values lie in `[0, 1]` exactly when the stated four conditions hold. -/
theorem cell_values_in_range_iff (a b N : ℚ) (hN : 2 ≤ N) (ha0 : 0 ≤ a) (ha1 : a ≤ 1)
    (hb0 : 0 ≤ b) (hb1 : b ≤ 1) :
    ((0 ≤ (1 - a) * (((1 - b) * N - 1) / (N - 1)) ∧
        (1 - a) * (((1 - b) * N - 1) / (N - 1)) ≤ 1) ∧
      (0 ≤ a * ((1 - b) * N / (N - 1)) ∧ a * ((1 - b) * N / (N - 1)) ≤ 1) ∧
      (0 ≤ (1 - a) * (b * N / (N - 1)) ∧ (1 - a) * (b * N / (N - 1)) ≤ 1) ∧
      (0 ≤ a * ((b * N - 1) / (N - 1)) ∧ a * ((b * N - 1) / (N - 1)) ≤ 1)) ↔
    ((a = 0 ∨ 1 ≤ b * N) ∧ (a = 1 ∨ 1 ≤ (1 - b) * N) ∧ a * (1 - b) * N ≤ N - 1 ∧
      (1 - a) * b * N ≤ N - 1) := by
  have hd : 0 < N - 1 := by linarith
  have h1a : 0 ≤ 1 - a := by linarith
  have h1b : 0 ≤ 1 - b := by linarith
  have hN0 : 0 ≤ N := by linarith
  simp only [mul_div_nonneg_iff _ _ _ hd, mul_div_le_one_iff _ _ _ hd]
  have ccle : (1 - a) * ((1 - b) * N - 1) ≤ N - 1 := by
    nlinarith [mul_nonneg h1a (mul_nonneg hb0 hN0), mul_nonneg ha0 hd.le]
  have ttle : a * (b * N - 1) ≤ N - 1 := by
    nlinarith [mul_nonneg ha0 (mul_nonneg h1b hN0), mul_nonneg h1a hd.le]
  have tcge : 0 ≤ a * ((1 - b) * N) := mul_nonneg ha0 (mul_nonneg h1b hN0)
  have ctge : 0 ≤ (1 - a) * (b * N) := mul_nonneg h1a (mul_nonneg hb0 hN0)
  have ecc : (0 ≤ (1 - a) * ((1 - b) * N - 1)) ↔ (a = 1 ∨ 1 ≤ (1 - b) * N) := by
    rw [mul_nonneg_iff_of_nonneg _ _ h1a]
    constructor
    · rintro (h | h)
      · exact Or.inl (by linarith)
      · exact Or.inr (by linarith)
    · rintro (h | h)
      · exact Or.inl (by linarith)
      · exact Or.inr (by linarith)
  have ett : (0 ≤ a * (b * N - 1)) ↔ (a = 0 ∨ 1 ≤ b * N) := by
    rw [mul_nonneg_iff_of_nonneg _ _ ha0]
    constructor
    · rintro (h | h)
      · exact Or.inl h
      · exact Or.inr (by linarith)
    · rintro (h | h)
      · exact Or.inl h
      · exact Or.inr (by linarith)
  rw [ecc, ett]
  constructor
  · rintro ⟨⟨c1, -⟩, ⟨-, t2⟩, ⟨-, k2⟩, ⟨d1, -⟩⟩
    exact ⟨d1, c1, by linarith, by linarith⟩
  · rintro ⟨d1, c1, t2, k2⟩
    exact ⟨⟨c1, ccle⟩, ⟨tcge, by linarith⟩, ⟨ctge, by linarith⟩, ⟨d1, ttle⟩⟩

theorem pair_cells_in_range_iff (prs : VectorXd) (i j : Nat) (hi : i < prs.size)
    (hj : j < prs.size) (hij : i ≠ j) (hi0 : 0 ≤ prs.coeff i) (hi1 : prs.coeff i ≤ 1)
    (hj0 : 0 ≤ prs.coeff j) (hj1 : prs.coeff j ≤ 1) :
    ((∃ v : ℚ, (gen_pr_matrix_complete prs).coeff i j = some v ∧ 0 ≤ v ∧ v ≤ 1) ∧
      (∃ v : ℚ, (gen_pr_matrix_complete prs).coeff (i + prs.size) j = some v ∧
        0 ≤ v ∧ v ≤ 1) ∧
      (∃ v : ℚ, (gen_pr_matrix_complete prs).coeff i (j + prs.size) = some v ∧
        0 ≤ v ∧ v ≤ 1) ∧
      (∃ v : ℚ, (gen_pr_matrix_complete prs).coeff (i + prs.size) (j + prs.size) = some v ∧
        0 ≤ v ∧ v ≤ 1)) ↔
    ((prs.coeff i = 0 ∨ 1 ≤ prs.coeff j * prs.size) ∧
      (prs.coeff i = 1 ∨ 1 ≤ (1 - prs.coeff j) * prs.size) ∧
      prs.coeff i * (1 - prs.coeff j) * prs.size ≤ (prs.size : ℚ) - 1 ∧
      (1 - prs.coeff i) * prs.coeff j * prs.size ≤ (prs.size : ℚ) - 1) := by
  obtain ⟨h1, h2, h3, h4⟩ := gen_pr_matrix_complete_closed prs i j hi hj
  simp only [hij, if_false] at h1 h2 h3 h4
  have hn2 : 2 ≤ prs.size := by omega
  have hN : (2 : ℚ) ≤ (prs.size : ℚ) := by exact_mod_cast hn2
  rw [h1, h2, h3, h4]
  simp only [Option.some.injEq, exists_eq_left']
  exact cell_values_in_range_iff (prs.coeff i) (prs.coeff j) prs.size hN hi0 hi1 hj0 hj1

theorem diag_cells_in_range (prs : VectorXd) (i : Nat) (hi : i < prs.size)
    (hi0 : 0 ≤ prs.coeff i) (hi1 : prs.coeff i ≤ 1) :
    (∃ v : ℚ, (gen_pr_matrix_complete prs).coeff i i = some v ∧ 0 ≤ v ∧ v ≤ 1) ∧
    (∃ v : ℚ, (gen_pr_matrix_complete prs).coeff (i + prs.size) i = some v ∧
      0 ≤ v ∧ v ≤ 1) ∧
    (∃ v : ℚ, (gen_pr_matrix_complete prs).coeff i (i + prs.size) = some v ∧
      0 ≤ v ∧ v ≤ 1) ∧
    (∃ v : ℚ, (gen_pr_matrix_complete prs).coeff (i + prs.size) (i + prs.size) = some v ∧
      0 ≤ v ∧ v ≤ 1) := by
  obtain ⟨h1, h2, h3, h4⟩ := gen_pr_matrix_complete_closed prs i i hi hi
  simp only [if_true] at h1 h2 h3 h4
  exact ⟨⟨_, h1, by linarith, by linarith⟩, ⟨_, h2, le_refl _, zero_le_one⟩,
    ⟨_, h3, le_refl _, zero_le_one⟩, ⟨_, h4, hi0, hi1⟩⟩

theorem gen_pr_matrix_complete_marginal (prs : VectorXd) (i j : Nat) (hi : i < prs.size)
    (hj : j < prs.size) :
    (∃ a b d : ℚ, (gen_pr_matrix_complete prs).coeff i j = some a ∧
      (gen_pr_matrix_complete prs).coeff i (j + prs.size) = some b ∧
      (gen_pr_matrix_complete prs).coeff i i = some d ∧ a + b = d) ∧
    (∃ a b d : ℚ, (gen_pr_matrix_complete prs).coeff (i + prs.size) j = some a ∧
      (gen_pr_matrix_complete prs).coeff (i + prs.size) (j + prs.size) = some b ∧
      (gen_pr_matrix_complete prs).coeff (i + prs.size) (i + prs.size) = some d ∧
      a + b = d) := by
  obtain ⟨d1, -, -, d4⟩ := gen_pr_matrix_complete_closed prs i i hi hi
  simp only [if_true] at d1 d4
  by_cases hij : i = j
  · subst hij
    obtain ⟨-, h2, h3, -⟩ := gen_pr_matrix_complete_closed prs i i hi hi
    simp only [if_true] at h2 h3
    exact ⟨⟨_, _, _, d1, h3, d1, add_zero _⟩, ⟨_, _, _, h2, d4, d4, zero_add _⟩⟩
  · obtain ⟨h1, h2, h3, h4⟩ := gen_pr_matrix_complete_closed prs i j hi hj
    simp only [hij, if_false] at h1 h2 h3 h4
    have hn2 : 2 ≤ prs.size := by omega
    have hN : (2 : ℚ) ≤ (prs.size : ℚ) := by exact_mod_cast hn2
    have hN1 : (prs.size : ℚ) - 1 ≠ 0 := by linarith
    refine ⟨⟨_, _, _, h1, h3, d1, ?_⟩, ⟨_, _, _, h2, h4, d4, ?_⟩⟩
    · field_simp
      ring
    · field_simp
      ring

theorem gen_pr_matrix_complete_cross_transpose (prs : VectorXd) (i j : Nat)
    (hi : i < prs.size) (hj : j < prs.size) :
    (gen_pr_matrix_complete prs).coeff (i + prs.size) j =
      (gen_pr_matrix_complete prs).coeff j (i + prs.size) := by
  obtain ⟨-, h2, -, -⟩ := gen_pr_matrix_complete_closed prs i j hi hj
  obtain ⟨-, -, g3, -⟩ := gen_pr_matrix_complete_closed prs j i hj hi
  rw [h2, g3]
  by_cases hij : i = j
  · subst hij
    simp
  · have hji : ¬ j = i := fun h => hij h.symm
    simp only [hij, hji, if_false]
    congr 1
    ring

theorem gen_pr_matrix_complete_same_arm_symm (prs : VectorXd) (i j : Nat)
    (hi : i < prs.size) (hj : j < prs.size) (h : prs.coeff i = prs.coeff j) :
    (gen_pr_matrix_complete prs).coeff i j = (gen_pr_matrix_complete prs).coeff j i ∧
    (gen_pr_matrix_complete prs).coeff (i + prs.size) (j + prs.size) =
      (gen_pr_matrix_complete prs).coeff (j + prs.size) (i + prs.size) := by
  obtain ⟨h1, -, -, h4⟩ := gen_pr_matrix_complete_closed prs i j hi hj
  obtain ⟨g1, -, -, g4⟩ := gen_pr_matrix_complete_closed prs j i hj hi
  rw [h1, g1, h4, g4]
  by_cases hij : i = j
  · subst hij
    simp
  · have hji : ¬ j = i := fun h => hij h.symm
    simp [hij, hji, h]

theorem gen_pr_matrix_complete_symm_imp_eq (prs : VectorXd) (i j : Nat)
    (hi : i < prs.size) (hj : j < prs.size)
    (h : (gen_pr_matrix_complete prs).coeff i j = (gen_pr_matrix_complete prs).coeff j i) :
    prs.coeff i = prs.coeff j := by
  by_cases hij : i = j
  · rw [hij]
  · have hji : ¬ j = i := fun h => hij h.symm
    obtain ⟨h1, -, -, -⟩ := gen_pr_matrix_complete_closed prs i j hi hj
    obtain ⟨g1, -, -, -⟩ := gen_pr_matrix_complete_closed prs j i hj hi
    rw [h1, g1] at h
    simp only [hij, hji, if_false, Option.some.injEq] at h
    have hn2 : 2 ≤ prs.size := by omega
    have hN : (2 : ℚ) ≤ (prs.size : ℚ) := by exact_mod_cast hn2
    have hN1 : (prs.size : ℚ) - 1 ≠ 0 := by linarith
    field_simp at h
    linarith

/-! ## Total variance -/

/-- C1: `ht_var_total y p` is the sum over all `n²` ordered pairs `(i, j)`, the
diagonal included and both `(i, j)` and `(j, i)` visited, of
`(p[i][j] − p[i][i]·p[j][j])·y[i]·y[j]`, without normalisation; for `y = [1, 2]`
and `p = [[1/2, 1/4], [1/4, 1/2]]` it is exactly `5/4`, and for `n = 0` it is `0`. -/
theorem C1_ht_var_total_all_ordered_pairs :
    (∀ (y : VectorXd) (p : MatrixXd),
      ht_var_total y p =
        ∑ i in Finset.range y.size, ∑ j in Finset.range y.size,
          (p.coeff i j - p.coeff i i * p.coeff j j) * y.coeff i * y.coeff j) ∧
    ht_var_total (VectorXd.ofList [1, 2])
      (MatrixXd.ofRows 2 2 [[1 / 2, 1 / 4], [1 / 4, 1 / 2]]) = 5 / 4 ∧
    (∀ (c : Nat → ℚ) (p : MatrixXd), ht_var_total ⟨0, c⟩ p = 0) := by
  refine ⟨ht_var_total_eq, ?_, ?_⟩
  · rw [ht_var_total_eq]
    simp [VectorXd.ofList, MatrixXd.ofRows, Finset.sum_range_succ]
    norm_num
  · intro c p
    rw [ht_var_total_eq]
    simp

/-- C2: when `p` is exactly symmetric, the upper-triangle formulation
`ht_var_total2 y p` (the diagonal sum plus twice the strict upper-triangle sum)
returns the same value as `ht_var_total y p`. -/
theorem C2_ht_var_total2_eq_ht_var_total (y : VectorXd) (p : MatrixXd)
    (hsym : ∀ i j, i < y.size → j < y.size → p.coeff i j = p.coeff j i) :
    ht_var_total2 y p = diagPlusTwiceUpper y p ∧ ht_var_total2 y p = ht_var_total y p := by
  refine ⟨ht_var_total2_eq y p, ?_⟩
  rw [ht_var_total2_eq, ht_var_total_eq_pairTerm, diagPlusTwiceUpper]
  exact (sum_square_eq_diag_add_upper (pairTerm y p) y.size
    (fun i j hi hj => pairTerm_symm y p i j (hsym i j hi hj))).symm

/-! ## Partial variance and the covariances -/

/-- C3: `ht_var_partial y p` is the sum over every ordered pair `(i, j)` with `i ≠ j`
(the diagonal excluded, both `(i, j)` and `(j, i)` visited) of the term
`y[i]·y[j]·(p[i][j] − p[i][i]·p[j][j]) / p[i][j]` when `p[i][j] ≠ 0`, and of
`y[i]·y[j]·(p[i][j] − p[i][i]·p[j][j]) + y[i]²·p[i][i]/2 + y[j]²·p[j][j]/2` when
`p[i][j]` is exactly `0`. -/
theorem C3_ht_var_partial_off_diagonal_sum (y : VectorXd) (p : MatrixXd) :
    ht_var_partial y p =
      some (∑ q in (Finset.range y.size ×ˢ Finset.range y.size).filter (fun q => q.1 ≠ q.2),
        (if p.coeff q.1 q.2 = 0 then
          y.coeff q.1 * y.coeff q.2 * (p.coeff q.1 q.2 - p.coeff q.1 q.1 * p.coeff q.2 q.2) +
            y.coeff q.1 ^ 2 * p.coeff q.1 q.1 / 2 + y.coeff q.2 ^ 2 * p.coeff q.2 q.2 / 2
        else
          y.coeff q.1 * y.coeff q.2 * (p.coeff q.1 q.2 - p.coeff q.1 q.1 * p.coeff q.2 q.2) /
            p.coeff q.1 q.2)) :=
  ht_var_partial_eq y p

/-- C4: `ht_covar_total y0 y1 p00 p11 pj` is the sum over every ordered pair `(i, j)`
with `i ≠ j` (the diagonal is skipped) of
`(pj[i][j] − p00[i][i]·p11[j][j])·y0[i]·y1[j]`, that is of
`ht_var(pj[i][j], p00[i][i], p11[j][j], y0[i], y1[j])`; nothing is divided. -/
theorem C4_ht_covar_total_off_diagonal_sum (y0 y1 : VectorXd) (p00 p11 pj : MatrixXd) :
    ht_covar_total y0 y1 p00 p11 pj =
        ∑ q in (Finset.range y0.size ×ˢ Finset.range y0.size).filter (fun q => q.1 ≠ q.2),
          (pj.coeff q.1 q.2 - p00.coeff q.1 q.1 * p11.coeff q.2 q.2) *
            y0.coeff q.1 * y1.coeff q.2 ∧
    ht_covar_total y0 y1 p00 p11 pj =
        ∑ q in (Finset.range y0.size ×ˢ Finset.range y0.size).filter (fun q => q.1 ≠ q.2),
          ht_var (pj.coeff q.1 q.2) (p00.coeff q.1 q.1) (p11.coeff q.2 q.2)
            (y0.coeff q.1) (y1.coeff q.2) :=
  ⟨ht_covar_total_eq y0 y1 p00 p11 pj, ht_covar_total_eq y0 y1 p00 p11 pj⟩

/-- C5: `ht_covar_partial y1 y0 p10 p1 p0` is the sum over the full Cartesian product of
indices `i < y1.size`, `j < y0.size` (no diagonal exclusion, the two sizes may differ) of
`y1[i]·y0[j]·(p10[i][j] − p1[i]·p0[j]) / p10[i][j]` when `p10[i][j] ≠ 0`, and of the
undivided numerator when `p10[i][j]` is exactly `0`. -/
theorem C5_ht_covar_partial_cartesian_sum (y1 y0 : VectorXd) (p10 : MatrixXd)
    (p1 p0 : VectorXd) :
    ht_covar_partial y1 y0 p10 p1 p0 =
      some (∑ q in Finset.range y1.size ×ˢ Finset.range y0.size,
        (if p10.coeff q.1 q.2 = 0 then
          y1.coeff q.1 * y0.coeff q.2 * (p10.coeff q.1 q.2 - p1.coeff q.1 * p0.coeff q.2)
        else
          y1.coeff q.1 * y0.coeff q.2 * (p10.coeff q.1 q.2 - p1.coeff q.1 * p0.coeff q.2) /
            p10.coeff q.1 q.2)) := by
  rw [ht_covar_partial_eq, Finset.sum_product]
  rfl

/-- C2 (witness): the symmetric matrix `[[1/2, 1/4], [1/4, 1/2]]` with `y = [1, 2]`. -/
theorem C2_ht_var_total2_eq_ht_var_total_witness :
    ht_var_total2 (VectorXd.ofList [1, 2])
        (MatrixXd.ofRows 2 2 [[1 / 2, 1 / 4], [1 / 4, 1 / 2]]) =
      ht_var_total (VectorXd.ofList [1, 2])
        (MatrixXd.ofRows 2 2 [[1 / 2, 1 / 4], [1 / 4, 1 / 2]]) :=
  (C2_ht_var_total2_eq_ht_var_total (VectorXd.ofList [1, 2])
    (MatrixXd.ofRows 2 2 [[1 / 2, 1 / 4], [1 / 4, 1 / 2]]) (by
      intro i j hi hj
      have hi2 : i < 2 := hi
      have hj2 : j < 2 := hj
      interval_cases i <;> interval_cases j <;> simp [MatrixXd.ofRows])).2

/-! ## The probability matrix of complete randomization -/

/-- C6: for every `prs` of length `n` (also `n = 1`) and every unit `i < n`, the matrix
`M = gen_pr_matrix_complete prs` is `2n × 2n`, `M[i][i] = 1 − prs[i]`,
`M[i+n][i+n] = prs[i]`, and the same-unit-different-arm cells `M[i][i+n]` and
`M[i+n][i]` are exactly `0`. -/
theorem C6_gen_pr_matrix_complete_diagonal (prs : VectorXd) (i : Nat) (hi : i < prs.size) :
    (gen_pr_matrix_complete prs).rows = 2 * prs.size ∧
    (gen_pr_matrix_complete prs).cols = 2 * prs.size ∧
    (gen_pr_matrix_complete prs).coeff i i = some (1 - prs.coeff i) ∧
    (gen_pr_matrix_complete prs).coeff (i + prs.size) (i + prs.size) = some (prs.coeff i) ∧
    (gen_pr_matrix_complete prs).coeff i (i + prs.size) = some 0 ∧
    (gen_pr_matrix_complete prs).coeff (i + prs.size) i = some 0 := by
  obtain ⟨h1, h2, h3, h4⟩ := gen_pr_matrix_complete_cellOK prs i i hi hi
  simp only [if_true] at h1 h2 h3 h4
  exact ⟨(gen_pr_matrix_complete_dims prs).1, (gen_pr_matrix_complete_dims prs).2,
    h1, h4, h3, h2⟩

/-- C6 (witness): a single unit, `prs = [1/3]`, `i = 0`. -/
theorem C6_gen_pr_matrix_complete_diagonal_witness :
    (gen_pr_matrix_complete (VectorXd.ofList [1 / 3])).rows = 2 ∧
    (gen_pr_matrix_complete (VectorXd.ofList [1 / 3])).cols = 2 ∧
    (gen_pr_matrix_complete (VectorXd.ofList [1 / 3])).coeff 0 0 = some (1 - 1 / 3) ∧
    (gen_pr_matrix_complete (VectorXd.ofList [1 / 3])).coeff 1 1 = some (1 / 3) ∧
    (gen_pr_matrix_complete (VectorXd.ofList [1 / 3])).coeff 0 1 = some 0 ∧
    (gen_pr_matrix_complete (VectorXd.ofList [1 / 3])).coeff 1 0 = some 0 :=
  C6_gen_pr_matrix_complete_diagonal (VectorXd.ofList [1 / 3]) 0 (by decide)

/-- C7: for every `prs` of length `n ≥ 2` and distinct units `i ≠ j`, the matrix
`M = gen_pr_matrix_complete prs` has `M[i][j] = joint_incl_pr(1−prs[i], 1−prs[j], 1, n)`,
`M[i+n][j] = joint_incl_pr(prs[i], 1−prs[j], 0, n)`,
`M[i][j+n] = joint_incl_pr(1−prs[i], prs[j], 0, n)` and
`M[i+n][j+n] = joint_incl_pr(prs[i], prs[j], 1, n)`; every cell `(r, c)` with
`r, c < 2n` is one of the four cells of some pair `(i, j)`, so with the diagonal rule
all `4n²` cells are determined.  For `prs = [1/2, 1/2]`: `M[0][0] = 1/2`,
`M[2][2] = 1/2`, `M[0][2] = 0`, `M[1][3] = 0` and `M[0][1] = 0`. -/
theorem C7_gen_pr_matrix_complete_off_diagonal :
    (∀ (prs : VectorXd), 2 ≤ prs.size → ∀ i j : Nat, i < prs.size → j < prs.size → i ≠ j →
      (gen_pr_matrix_complete prs).coeff i j =
        joint_incl_pr (1 - prs.coeff i) (1 - prs.coeff j) 1 prs.size ∧
      (gen_pr_matrix_complete prs).coeff (i + prs.size) j =
        joint_incl_pr (prs.coeff i) (1 - prs.coeff j) 0 prs.size ∧
      (gen_pr_matrix_complete prs).coeff i (j + prs.size) =
        joint_incl_pr (1 - prs.coeff i) (prs.coeff j) 0 prs.size ∧
      (gen_pr_matrix_complete prs).coeff (i + prs.size) (j + prs.size) =
        joint_incl_pr (prs.coeff i) (prs.coeff j) 1 prs.size) ∧
    (∀ (prs : VectorXd) (r c : Nat), r < 2 * prs.size → c < 2 * prs.size →
      ∃ i j : Nat, i < prs.size ∧ j < prs.size ∧ (r = i ∨ r = i + prs.size) ∧
        (c = j ∨ c = j + prs.size) ∧ cellOK prs prs.size i j (gen_pr_matrix_complete prs)) ∧
    ((gen_pr_matrix_complete (VectorXd.ofList [1 / 2, 1 / 2])).coeff 0 0 = some (1 / 2) ∧
      (gen_pr_matrix_complete (VectorXd.ofList [1 / 2, 1 / 2])).coeff 2 2 = some (1 / 2) ∧
      (gen_pr_matrix_complete (VectorXd.ofList [1 / 2, 1 / 2])).coeff 0 2 = some 0 ∧
      (gen_pr_matrix_complete (VectorXd.ofList [1 / 2, 1 / 2])).coeff 1 3 = some 0 ∧
      (gen_pr_matrix_complete (VectorXd.ofList [1 / 2, 1 / 2])).coeff 0 1 = some 0) := by
  refine ⟨?_, ?_, ?_⟩
  · intro prs _ i j hi hj hij
    obtain ⟨h1, h2, h3, h4⟩ := gen_pr_matrix_complete_cellOK prs i j hi hj
    simp only [hij, if_false] at h1 h2 h3 h4
    exact ⟨h1, h2, h3, h4⟩
  · intro prs r c hr hc
    refine ⟨if r < prs.size then r else r - prs.size,
      if c < prs.size then c else c - prs.size, ?_, ?_, ?_, ?_, ?_⟩
    · split <;> omega
    · split <;> omega
    · split <;> omega
    · split <;> omega
    · apply gen_pr_matrix_complete_cellOK
      · split <;> omega
      · split <;> omega
  · refine ⟨?_, ?_, ?_, ?_, ?_⟩
    · simp [gen_pr_matrix_complete, forLoop, loopFrom, gen_pr_cell, PrMatrix.set,
        PrMatrix.alloc, joint_incl_pr, safeDiv, VectorXd.ofList]
      norm_num
    · simp [gen_pr_matrix_complete, forLoop, loopFrom, gen_pr_cell, PrMatrix.set,
        PrMatrix.alloc, joint_incl_pr, safeDiv, VectorXd.ofList]
    · simp [gen_pr_matrix_complete, forLoop, loopFrom, gen_pr_cell, PrMatrix.set,
        PrMatrix.alloc, joint_incl_pr, safeDiv, VectorXd.ofList]
    · simp [gen_pr_matrix_complete, forLoop, loopFrom, gen_pr_cell, PrMatrix.set,
        PrMatrix.alloc, joint_incl_pr, safeDiv, VectorXd.ofList]
    · simp [gen_pr_matrix_complete, forLoop, loopFrom, gen_pr_cell, PrMatrix.set,
        PrMatrix.alloc, joint_incl_pr, safeDiv, VectorXd.ofList]
      norm_num

/-- C7 (witness): `prs = [1/2, 1/2]`, the pair `i = 0`, `j = 1`. -/
theorem C7_gen_pr_matrix_complete_off_diagonal_witness :
    (gen_pr_matrix_complete (VectorXd.ofList [1 / 2, 1 / 2])).coeff 0 1 =
      joint_incl_pr (1 - 1 / 2) (1 - 1 / 2) 1 ((2 : Nat) : ℚ) ∧
    (gen_pr_matrix_complete (VectorXd.ofList [1 / 2, 1 / 2])).coeff 2 1 =
      joint_incl_pr (1 / 2) (1 - 1 / 2) 0 ((2 : Nat) : ℚ) ∧
    (gen_pr_matrix_complete (VectorXd.ofList [1 / 2, 1 / 2])).coeff 0 3 =
      joint_incl_pr (1 - 1 / 2) (1 / 2) 0 ((2 : Nat) : ℚ) ∧
    (gen_pr_matrix_complete (VectorXd.ofList [1 / 2, 1 / 2])).coeff 2 3 =
      joint_incl_pr (1 / 2) (1 / 2) 1 ((2 : Nat) : ℚ) :=
  C7_gen_pr_matrix_complete_off_diagonal.1 (VectorXd.ofList [1 / 2, 1 / 2]) (by decide) 0 1
    (by decide) (by decide) (by decide)

/-- C9 (counterexample): for `prs = [1/2]`, of length `1`, every cell of the returned
`2 × 2` matrix holds a defined number, although `joint_incl_pr` with `ntotal = 1` has no
defined result: the builder did not fail and stored no division by zero. -/
theorem C9_gen_pr_matrix_complete_size_one_counterexample :
    (VectorXd.ofList [1 / 2]).size = 1 ∧
    joint_incl_pr (1 - 1 / 2) (1 - 1 / 2) 1 ((1 : Nat) : ℚ) = none ∧
    (gen_pr_matrix_complete (VectorXd.ofList [1 / 2])).coeff 0 0 = some (1 / 2) ∧
    (gen_pr_matrix_complete (VectorXd.ofList [1 / 2])).coeff 0 1 = some 0 ∧
    (gen_pr_matrix_complete (VectorXd.ofList [1 / 2])).coeff 1 0 = some 0 ∧
    (gen_pr_matrix_complete (VectorXd.ofList [1 / 2])).coeff 1 1 = some (1 / 2) := by
  refine ⟨rfl, ?_, ?_, ?_, ?_, ?_⟩
  · simp [joint_incl_pr, safeDiv]
  · simp [gen_pr_matrix_complete, forLoop, loopFrom, gen_pr_cell, PrMatrix.set,
      PrMatrix.alloc, VectorXd.ofList]
    norm_num
  · simp [gen_pr_matrix_complete, forLoop, loopFrom, gen_pr_cell, PrMatrix.set,
      PrMatrix.alloc, VectorXd.ofList]
  · simp [gen_pr_matrix_complete, forLoop, loopFrom, gen_pr_cell, PrMatrix.set,
      PrMatrix.alloc, VectorXd.ofList]
  · simp [gen_pr_matrix_complete, forLoop, loopFrom, gen_pr_cell, PrMatrix.set,
      PrMatrix.alloc, VectorXd.ofList]

/-- C9 (amended): for every `prs` of length `1` the builder does not fail: the only pair
is `i = j = 0`, which takes the diagonal branch, and the returned matrix is the
`2 × 2` matrix `[[1 − prs[0], 0], [0, prs[0]]]`, every cell a defined number. -/
theorem C9_gen_pr_matrix_complete_size_one (prs : VectorXd) (h : prs.size = 1) :
    (gen_pr_matrix_complete prs).rows = 2 ∧
    (gen_pr_matrix_complete prs).cols = 2 ∧
    (gen_pr_matrix_complete prs).coeff 0 0 = some (1 - prs.coeff 0) ∧
    (gen_pr_matrix_complete prs).coeff 0 1 = some 0 ∧
    (gen_pr_matrix_complete prs).coeff 1 0 = some 0 ∧
    (gen_pr_matrix_complete prs).coeff 1 1 = some (prs.coeff 0) := by
  obtain ⟨h1, h2, h3, h4⟩ := gen_pr_matrix_complete_cellOK prs 0 0 (by omega) (by omega)
  obtain ⟨d1, d2⟩ := gen_pr_matrix_complete_dims prs
  rw [h] at h1 h2 h3 h4 d1 d2
  simp only [if_true, Nat.zero_add] at h1 h2 h3 h4
  exact ⟨d1, d2, h1, h3, h2, h4⟩

/-- C9 (witness of the amended claim): `prs = [1/2]`. -/
theorem C9_gen_pr_matrix_complete_size_one_witness :
    (gen_pr_matrix_complete (VectorXd.ofList [1 / 2])).rows = 2 ∧
    (gen_pr_matrix_complete (VectorXd.ofList [1 / 2])).cols = 2 ∧
    (gen_pr_matrix_complete (VectorXd.ofList [1 / 2])).coeff 0 0 =
      some (1 - (VectorXd.ofList [1 / 2]).coeff 0) ∧
    (gen_pr_matrix_complete (VectorXd.ofList [1 / 2])).coeff 0 1 = some 0 ∧
    (gen_pr_matrix_complete (VectorXd.ofList [1 / 2])).coeff 1 0 = some 0 ∧
    (gen_pr_matrix_complete (VectorXd.ofList [1 / 2])).coeff 1 1 =
      some ((VectorXd.ofList [1 / 2]).coeff 0) :=
  C9_gen_pr_matrix_complete_size_one (VectorXd.ofList [1 / 2]) rfl

/-! ## Total against partial variance -/

/-- C8 (counterexample): for `y = [1, 1]` and `p = [[1/2, 1/2], [1/2, 1/2]]`, where no
off-diagonal entry is zero, `ht_var_total` is `1`, `ht_var_partial` is `1`, and the sum of
the diagonal pairwise terms is `1/2`: the difference `0` is not the diagonal sum. -/
theorem C8_total_minus_partial_counterexample :
    (MatrixXd.ofRows 2 2 [[1 / 2, 1 / 2], [1 / 2, 1 / 2]]).coeff 0 1 ≠ 0 ∧
    (MatrixXd.ofRows 2 2 [[1 / 2, 1 / 2], [1 / 2, 1 / 2]]).coeff 1 0 ≠ 0 ∧
    ht_var_total (VectorXd.ofList [1, 1])
      (MatrixXd.ofRows 2 2 [[1 / 2, 1 / 2], [1 / 2, 1 / 2]]) = 1 ∧
    ht_var_partial (VectorXd.ofList [1, 1])
      (MatrixXd.ofRows 2 2 [[1 / 2, 1 / 2], [1 / 2, 1 / 2]]) = some 1 ∧
    ht_var (1 / 2) (1 / 2) (1 / 2) 1 1 + ht_var (1 / 2) (1 / 2) (1 / 2) 1 1 = 1 / 2 ∧
    (1 : ℚ) - 1 ≠ ht_var (1 / 2) (1 / 2) (1 / 2) 1 1 + ht_var (1 / 2) (1 / 2) (1 / 2) 1 1 := by
  refine ⟨?_, ?_, ?_, ?_, ?_, ?_⟩
  · simp [MatrixXd.ofRows]
  · simp [MatrixXd.ofRows]
  · simp [ht_var_total, forLoop, loopFrom, ht_var, VectorXd.ofList, MatrixXd.ofRows]
    norm_num
  · simp [forLoopM, loopFromM, ht_var_partial, safeDiv, VectorXd.ofList, MatrixXd.ofRows]
    norm_num
  · simp [ht_var]
    norm_num
  · simp [ht_var]
    norm_num

/-- C8 (amended): when no off-diagonal entry of `p` is zero, `ht_var_partial y p` is a
defined number and `ht_var_total y p − ht_var_partial y p` is the sum of the `n` diagonal
pairwise terms plus, for every ordered pair `i ≠ j`, the pairwise term
`ht_var(p[i][j], p[i][i], p[j][j], y[i], y[j])` times `1 − 1/p[i][j]`. -/
theorem C8_total_minus_partial (y : VectorXd) (p : MatrixXd)
    (hnz : ∀ i j, i < y.size → j < y.size → i ≠ j → p.coeff i j ≠ 0) :
    ∃ v : ℚ, ht_var_partial y p = some v ∧
      ht_var_total y p - v =
        ∑ i in Finset.range y.size,
          ht_var (p.coeff i i) (p.coeff i i) (p.coeff i i) (y.coeff i) (y.coeff i) +
        ∑ q in (Finset.range y.size ×ˢ Finset.range y.size).filter (fun q => q.1 ≠ q.2),
          ht_var (p.coeff q.1 q.2) (p.coeff q.1 q.1) (p.coeff q.2 q.2)
            (y.coeff q.1) (y.coeff q.2) * (1 - 1 / p.coeff q.1 q.2) := by
  refine ⟨_, ht_var_partial_eq y p, ?_⟩
  rw [ht_var_total_eq_pairTerm, sum_square_eq_diag_add_offDiag, add_sub_assoc,
    ← Finset.sum_sub_distrib]
  congr 1
  apply Finset.sum_congr rfl
  intro q hq
  simp only [offDiag, Finset.mem_filter, Finset.mem_product, Finset.mem_range] at hq
  have hp : p.coeff q.1 q.2 ≠ 0 := hnz q.1 q.2 hq.1.1 hq.1.2 hq.2
  simp only [pairTerm, varPartialTerm, ht_var, hp, if_false]
  field_simp
  ring

/-- C8 (witness of the amended claim): `y = [1, 1]`, `p = [[1/2, 1/2], [1/2, 1/2]]`. -/
theorem C8_total_minus_partial_witness :
    ∃ v : ℚ, ht_var_partial (VectorXd.ofList [1, 1])
        (MatrixXd.ofRows 2 2 [[1 / 2, 1 / 2], [1 / 2, 1 / 2]]) = some v ∧
      ht_var_total (VectorXd.ofList [1, 1])
        (MatrixXd.ofRows 2 2 [[1 / 2, 1 / 2], [1 / 2, 1 / 2]]) - v =
        ∑ i in Finset.range 2,
          ht_var ((MatrixXd.ofRows 2 2 [[1 / 2, 1 / 2], [1 / 2, 1 / 2]]).coeff i i)
            ((MatrixXd.ofRows 2 2 [[1 / 2, 1 / 2], [1 / 2, 1 / 2]]).coeff i i)
            ((MatrixXd.ofRows 2 2 [[1 / 2, 1 / 2], [1 / 2, 1 / 2]]).coeff i i)
            ((VectorXd.ofList [1, 1]).coeff i) ((VectorXd.ofList [1, 1]).coeff i) +
        ∑ q in (Finset.range 2 ×ˢ Finset.range 2).filter (fun q => q.1 ≠ q.2),
          ht_var ((MatrixXd.ofRows 2 2 [[1 / 2, 1 / 2], [1 / 2, 1 / 2]]).coeff q.1 q.2)
            ((MatrixXd.ofRows 2 2 [[1 / 2, 1 / 2], [1 / 2, 1 / 2]]).coeff q.1 q.1)
            ((MatrixXd.ofRows 2 2 [[1 / 2, 1 / 2], [1 / 2, 1 / 2]]).coeff q.2 q.2)
            ((VectorXd.ofList [1, 1]).coeff q.1) ((VectorXd.ofList [1, 1]).coeff q.2) *
            (1 - 1 / (MatrixXd.ofRows 2 2 [[1 / 2, 1 / 2], [1 / 2, 1 / 2]]).coeff q.1 q.2) :=
  C8_total_minus_partial (VectorXd.ofList [1, 1])
    (MatrixXd.ofRows 2 2 [[1 / 2, 1 / 2], [1 / 2, 1 / 2]]) (by
      intro i j hi hj _
      have hi2 : i < 2 := hi
      have hj2 : j < 2 := hj
      interval_cases i <;> interval_cases j <;> simp [MatrixXd.ofRows])

/-! ## Guarded divisions -/

/-- C10: in the guarded-division embedding (`safeDiv` has no result exactly when the
divisor is zero), `ht_var_partial` and `ht_covar_partial` return a defined number on every
input, matrices with exact-zero entries included: no division by zero is ever
performed.  For `y = [1, 2]` and `p = [[1/2, 0], [1/4, 1/2]]` the result is the additive
fallback value `3/4`. -/
theorem C10_partial_estimators_never_divide_by_zero :
    (∀ a b : ℚ, safeDiv a b = none ↔ b = 0) ∧
    (∀ (y : VectorXd) (p : MatrixXd), ∃ v : ℚ, ht_var_partial y p = some v) ∧
    (∀ (y1 y0 : VectorXd) (p10 : MatrixXd) (p1 p0 : VectorXd),
      ∃ v : ℚ, ht_covar_partial y1 y0 p10 p1 p0 = some v) ∧
    ht_var_partial (VectorXd.ofList [1, 2])
      (MatrixXd.ofRows 2 2 [[1 / 2, 0], [1 / 4, 1 / 2]]) = some (3 / 4) := by
  refine ⟨safeDiv_eq_none_iff, ?_, ?_, ?_⟩
  · intro y p
    exact ⟨_, ht_var_partial_eq y p⟩
  · intro y1 y0 p10 p1 p0
    exact ⟨_, ht_covar_partial_eq y1 y0 p10 p1 p0⟩
  · simp [forLoopM, loopFromM, ht_var_partial, safeDiv, VectorXd.ofList, MatrixXd.ofRows]
    norm_num

/-! ## The pairwise term and the joint inclusion probability -/

/-- C14: `ht_var(p1p2, p1, p2, y1, y2) = (p1p2 − p1·p2)·y1·y2` for all arguments; for a
single unit, `ht_var(p, p, p, y, y) = (p − p²)·y²`. -/
theorem C14_ht_var_formula :
    (∀ p1p2 p1 p2 y1 y2 : ℚ, ht_var p1p2 p1 p2 y1 y2 = (p1p2 - p1 * p2) * y1 * y2) ∧
    (∀ p y : ℚ, ht_var p p p y y = (p - p ^ 2) * y ^ 2) := by
  refine ⟨fun _ _ _ _ _ => rfl, ?_⟩
  intro p y
  unfold ht_var
  ring

/-- C11: `joint_incl_pr(pi, pj, same, ntotal)` divides by zero if and only if
`ntotal = 1`; for every `ntotal ≠ 1` it returns the defined value
`pi·((pj·ntotal − same)/(ntotal − 1))`. -/
theorem C11_joint_incl_pr_division_by_zero :
    (∀ (pj : ℚ) (same : Int) (ntotal : ℚ),
      safeDiv (pj * ntotal - (same : ℚ)) (ntotal - 1) = none ↔ ntotal = 1) ∧
    (∀ (pi pj : ℚ) (same : Int) (ntotal : ℚ),
      joint_incl_pr pi pj same ntotal = none ↔ ntotal = 1) ∧
    (∀ (pi pj : ℚ) (same : Int) (ntotal : ℚ), ntotal ≠ 1 →
      joint_incl_pr pi pj same ntotal =
        some (pi * ((pj * ntotal - (same : ℚ)) / (ntotal - 1)))) := by
  refine ⟨?_, joint_incl_pr_eq_none_iff, joint_incl_pr_of_ne_one⟩
  intro pj same ntotal
  rw [safeDiv_eq_none_iff, sub_eq_zero]

/-- C11 (witness): `pi = pj = 1/2`, `same = 1`, `ntotal = 2`. -/
theorem C11_joint_incl_pr_division_by_zero_witness :
    joint_incl_pr (1 / 2) (1 / 2) 1 2 =
      some ((1 / 2 : ℚ) * (((1 / 2 : ℚ) * 2 - (((1 : Int)) : ℚ)) / (2 - 1))) :=
  C11_joint_incl_pr_division_by_zero.2.2 (1 / 2) (1 / 2) 1 2 (by norm_num)

/-- C15: for all `pi`, `pj` and every `ntotal ≠ 1`, both results are defined and
`joint_incl_pr(pi, pj, 1, ntotal) + joint_incl_pr(pi, 1 − pj, 0, ntotal) = pi`. -/
theorem C15_joint_incl_pr_complementary (pi pj ntotal : ℚ) (h : ntotal ≠ 1) :
    ∃ a b : ℚ, joint_incl_pr pi pj 1 ntotal = some a ∧
      joint_incl_pr pi (1 - pj) 0 ntotal = some b ∧ a + b = pi :=
  ⟨_, _, joint_incl_pr_of_ne_one pi pj 1 ntotal h,
    joint_incl_pr_of_ne_one pi (1 - pj) 0 ntotal h, joint_incl_pr_complement pi pj ntotal h⟩

/-- C15 (witness): `pi = 1/2`, `pj = 1/3`, `ntotal = 3`. -/
theorem C15_joint_incl_pr_complementary_witness :
    ∃ a b : ℚ, joint_incl_pr (1 / 2) (1 / 3) 1 3 = some a ∧
      joint_incl_pr (1 / 2) (1 - 1 / 3) 0 3 = some b ∧ a + b = 1 / 2 :=
  C15_joint_incl_pr_complementary (1 / 2) (1 / 3) 3 (by norm_num)

/-! ## Algebraic relations of the total estimators -/

/-- C18: the total cross-covariance of a group with itself is the total variance minus
its diagonal: `ht_covar_total(y, y, p, p, p) = ht_var_total(y, p) −
Σ_i ht_var(p[i][i], p[i][i], p[i][i], y[i], y[i])`. -/
theorem C18_ht_covar_total_self (y : VectorXd) (p : MatrixXd) :
    ht_covar_total y y p p p =
      ht_var_total y p -
        ∑ i in Finset.range y.size,
          ht_var (p.coeff i i) (p.coeff i i) (p.coeff i i) (y.coeff i) (y.coeff i) := by
  rw [ht_covar_total_eq, ht_var_total_eq_pairTerm, sum_square_eq_diag_add_offDiag]
  simp only [pairTerm]
  ring

/-- C19: `ht_var_total(y, p)` is the quadratic form `Σ_i Σ_j p[i][j]·y[i]·y[j]` minus
the square of the probability-weighted total `(Σ_i p[i][i]·y[i])²`, for every `p`
(symmetric or not); scaling the outcomes by `c` scales the result by `c²`. -/
theorem C19_ht_var_total_quadratic_form :
    (∀ (y : VectorXd) (p : MatrixXd),
      ht_var_total y p =
        ∑ i in Finset.range y.size, ∑ j in Finset.range y.size,
            p.coeff i j * y.coeff i * y.coeff j -
          (∑ i in Finset.range y.size, p.coeff i i * y.coeff i) ^ 2) ∧
    (∀ (c : ℚ) (y : VectorXd) (p : MatrixXd),
      ht_var_total (VectorXd.scale c y) p = c ^ 2 * ht_var_total y p) :=
  ⟨ht_var_total_eq_quadratic, ht_var_total_scale⟩

/-! ## The built matrix under complete randomization -/

/-- C12: for every `n ≥ 2` and every integer `0 ≤ m ≤ n`, if `prs[i] = m/n` for all `i`,
then for every `i ≠ j` the matrix `M = gen_pr_matrix_complete prs` has
`M[i+n][j+n] = m(m−1)/(n(n−1))`, `M[i][j] = (n−m)(n−m−1)/(n(n−1))` and
`M[i+n][j] = M[i][j+n] = m(n−m)/(n(n−1))`. -/
theorem C12_gen_pr_matrix_complete_uniform (prs : VectorXd) (m : Nat) (_hn : 2 ≤ prs.size)
    (_hm : m ≤ prs.size)
    (hprs : ∀ i, i < prs.size → prs.coeff i = (m : ℚ) / (prs.size : ℚ)) (i j : Nat)
    (hi : i < prs.size) (hj : j < prs.size) (hij : i ≠ j) :
    (gen_pr_matrix_complete prs).coeff (i + prs.size) (j + prs.size) =
      some ((m : ℚ) * ((m : ℚ) - 1) / ((prs.size : ℚ) * ((prs.size : ℚ) - 1))) ∧
    (gen_pr_matrix_complete prs).coeff i j =
      some (((prs.size : ℚ) - m) * ((prs.size : ℚ) - m - 1) /
        ((prs.size : ℚ) * ((prs.size : ℚ) - 1))) ∧
    (gen_pr_matrix_complete prs).coeff (i + prs.size) j =
      some ((m : ℚ) * ((prs.size : ℚ) - m) / ((prs.size : ℚ) * ((prs.size : ℚ) - 1))) ∧
    (gen_pr_matrix_complete prs).coeff i (j + prs.size) =
      some ((m : ℚ) * ((prs.size : ℚ) - m) / ((prs.size : ℚ) * ((prs.size : ℚ) - 1))) :=
  uniform_cells prs m hprs i j hi hj hij

/-- C12 (witness): `prs = [1/2, 1/2]`, that is `m = 1` of `n = 2`, the pair `i = 0`, `j = 1`. -/
theorem C12_gen_pr_matrix_complete_uniform_witness :
    (gen_pr_matrix_complete (VectorXd.ofList [1 / 2, 1 / 2])).coeff 2 3 =
      some (((1 : Nat) : ℚ) * (((1 : Nat) : ℚ) - 1) / (((2 : Nat) : ℚ) * (((2 : Nat) : ℚ) - 1))) ∧
    (gen_pr_matrix_complete (VectorXd.ofList [1 / 2, 1 / 2])).coeff 0 1 =
      some ((((2 : Nat) : ℚ) - ((1 : Nat) : ℚ)) * (((2 : Nat) : ℚ) - ((1 : Nat) : ℚ) - 1) /
        (((2 : Nat) : ℚ) * (((2 : Nat) : ℚ) - 1))) ∧
    (gen_pr_matrix_complete (VectorXd.ofList [1 / 2, 1 / 2])).coeff 2 1 =
      some (((1 : Nat) : ℚ) * (((2 : Nat) : ℚ) - ((1 : Nat) : ℚ)) /
        (((2 : Nat) : ℚ) * (((2 : Nat) : ℚ) - 1))) ∧
    (gen_pr_matrix_complete (VectorXd.ofList [1 / 2, 1 / 2])).coeff 0 3 =
      some (((1 : Nat) : ℚ) * (((2 : Nat) : ℚ) - ((1 : Nat) : ℚ)) /
        (((2 : Nat) : ℚ) * (((2 : Nat) : ℚ) - 1))) :=
  C12_gen_pr_matrix_complete_uniform (VectorXd.ofList [1 / 2, 1 / 2]) 1 (by decide) (by decide)
    (by
      intro i hi
      have hi2 : i < 2 := hi
      interval_cases i <;> simp [VectorXd.ofList])
    0 1 (by decide) (by decide) (by decide)

/-- C13 (counterexample): `prs = [1/10, 9/10]` has length `2` and entries in `[0, 1]`, yet
the control–control cell `M[0][1]` is `−18/25 < 0`; and for `prs = [1, 0]` the
treatment–control cell `M[2][1]` is `2 > 1`. -/
theorem C13_gen_pr_matrix_complete_bounds_counterexample :
    (VectorXd.ofList [1 / 10, 9 / 10]).size = 2 ∧
    (0 ≤ (VectorXd.ofList [1 / 10, 9 / 10]).coeff 0 ∧
      (VectorXd.ofList [1 / 10, 9 / 10]).coeff 0 ≤ 1 ∧
      0 ≤ (VectorXd.ofList [1 / 10, 9 / 10]).coeff 1 ∧
      (VectorXd.ofList [1 / 10, 9 / 10]).coeff 1 ≤ 1) ∧
    (gen_pr_matrix_complete (VectorXd.ofList [1 / 10, 9 / 10])).coeff 0 1 =
      some (-(18 / 25)) ∧
    (gen_pr_matrix_complete (VectorXd.ofList [1, 0])).coeff 2 1 = some 2 := by
  refine ⟨rfl, ?_, ?_, ?_⟩
  · simp [VectorXd.ofList]
    norm_num
  · simp [gen_pr_matrix_complete, forLoop, loopFrom, gen_pr_cell, PrMatrix.set,
      PrMatrix.alloc, joint_incl_pr, safeDiv, VectorXd.ofList]
    norm_num
  · simp [gen_pr_matrix_complete, forLoop, loopFrom, gen_pr_cell, PrMatrix.set,
      PrMatrix.alloc, joint_incl_pr, safeDiv, VectorXd.ofList]
    norm_num

/-- C13 (amended): for every `prs` of length `n ≥ 2` whose entries all lie in `[0, 1]`,
every entry `M[r][c]`, `0 ≤ r, c < 2n`, of `M = gen_pr_matrix_complete prs` is a defined
number with `0 ≤ M[r][c] ≤ 1` if and only if for every pair of distinct units `i ≠ j`:
`prs[i] = 0` or `prs[j]·n ≥ 1`; `prs[i] = 1` or `(1 − prs[j])·n ≥ 1`; and
`prs[i]·(1 − prs[j])·n ≤ n − 1`. -/
theorem C13_gen_pr_matrix_complete_bounds_iff (prs : VectorXd) (_hn : 2 ≤ prs.size)
    (h01 : ∀ i, i < prs.size → 0 ≤ prs.coeff i ∧ prs.coeff i ≤ 1) :
    (∀ r c : Nat, r < 2 * prs.size → c < 2 * prs.size →
      ∃ v : ℚ, (gen_pr_matrix_complete prs).coeff r c = some v ∧ 0 ≤ v ∧ v ≤ 1) ↔
    (∀ i j : Nat, i < prs.size → j < prs.size → i ≠ j →
      (prs.coeff i = 0 ∨ 1 ≤ prs.coeff j * prs.size) ∧
      (prs.coeff i = 1 ∨ 1 ≤ (1 - prs.coeff j) * prs.size) ∧
      prs.coeff i * (1 - prs.coeff j) * prs.size ≤ (prs.size : ℚ) - 1) := by
  constructor
  · intro hall i j hi hj hij
    have hcond := (pair_cells_in_range_iff prs i j hi hj hij (h01 i hi).1 (h01 i hi).2
      (h01 j hj).1 (h01 j hj).2).mp
      ⟨hall i j (by omega) (by omega), hall (i + prs.size) j (by omega) (by omega),
        hall i (j + prs.size) (by omega) (by omega),
        hall (i + prs.size) (j + prs.size) (by omega) (by omega)⟩
    exact ⟨hcond.1, hcond.2.1, hcond.2.2.1⟩
  · intro hcond
    have hpair : ∀ i j : Nat, i < prs.size → j < prs.size →
        (∃ v : ℚ, (gen_pr_matrix_complete prs).coeff i j = some v ∧ 0 ≤ v ∧ v ≤ 1) ∧
        (∃ v : ℚ, (gen_pr_matrix_complete prs).coeff (i + prs.size) j = some v ∧
          0 ≤ v ∧ v ≤ 1) ∧
        (∃ v : ℚ, (gen_pr_matrix_complete prs).coeff i (j + prs.size) = some v ∧
          0 ≤ v ∧ v ≤ 1) ∧
        (∃ v : ℚ, (gen_pr_matrix_complete prs).coeff (i + prs.size) (j + prs.size) = some v ∧
          0 ≤ v ∧ v ≤ 1) := by
      intro i j hi hj
      by_cases hij : i = j
      · subst hij
        exact diag_cells_in_range prs i hi (h01 i hi).1 (h01 i hi).2
      · have hji : j ≠ i := fun h => hij h.symm
        obtain ⟨c1, c2, c3⟩ := hcond i j hi hj hij
        obtain ⟨-, -, d3⟩ := hcond j i hj hi hji
        exact (pair_cells_in_range_iff prs i j hi hj hij (h01 i hi).1 (h01 i hi).2
          (h01 j hj).1 (h01 j hj).2).mpr ⟨c1, c2, c3, by linarith⟩
    intro r c hr hc
    by_cases hrn : r < prs.size
    · by_cases hcn : c < prs.size
      · exact (hpair r c hrn hcn).1
      · obtain ⟨j, rfl⟩ : ∃ j, c = j + prs.size := ⟨c - prs.size, by omega⟩
        exact (hpair r j hrn (by omega)).2.2.1
    · obtain ⟨i, rfl⟩ : ∃ i, r = i + prs.size := ⟨r - prs.size, by omega⟩
      by_cases hcn : c < prs.size
      · exact (hpair i c (by omega) hcn).2.1
      · obtain ⟨j, rfl⟩ : ∃ j, c = j + prs.size := ⟨c - prs.size, by omega⟩
        exact (hpair i j (by omega) (by omega)).2.2.2

/-- C13 (witness of the amended claim): `prs = [1/2, 1/2, 1/2]`, which meets the three
conditions, so the cell `(0, 1)` is a defined number in `[0, 1]`. -/
theorem C13_gen_pr_matrix_complete_bounds_iff_witness :
    ∃ v : ℚ, (gen_pr_matrix_complete (VectorXd.ofList [1 / 2, 1 / 2, 1 / 2])).coeff 0 1 =
      some v ∧ 0 ≤ v ∧ v ≤ 1 :=
  (C13_gen_pr_matrix_complete_bounds_iff (VectorXd.ofList [1 / 2, 1 / 2, 1 / 2]) (by decide)
    (by
      intro i hi
      have hi3 : i < 3 := hi
      interval_cases i <;> simp [VectorXd.ofList] <;> norm_num)).mpr
    (by
      intro i j hi hj _
      have hi3 : i < 3 := hi
      have hj3 : j < 3 := hj
      interval_cases i <;> interval_cases j <;> simp [VectorXd.ofList] <;> norm_num)
    0 1 (by decide) (by decide)

/-- C16: for every `prs` of length `n ≥ 1`, every row `r < 2n` and every column unit
`j < n`, the cells `M[r][j]`, `M[r][j+n]` and `M[r][r]` of `M = gen_pr_matrix_complete prs`
are defined numbers and `M[r][j] + M[r][j+n] = M[r][r]`. -/
theorem C16_gen_pr_matrix_complete_marginal_consistency (prs : VectorXd) (r j : Nat)
    (hr : r < 2 * prs.size) (hj : j < prs.size) :
    ∃ a b d : ℚ, (gen_pr_matrix_complete prs).coeff r j = some a ∧
      (gen_pr_matrix_complete prs).coeff r (j + prs.size) = some b ∧
      (gen_pr_matrix_complete prs).coeff r r = some d ∧ a + b = d := by
  by_cases hrn : r < prs.size
  · exact (gen_pr_matrix_complete_marginal prs r j hrn hj).1
  · obtain ⟨i, rfl⟩ : ∃ i, r = i + prs.size := ⟨r - prs.size, by omega⟩
    exact (gen_pr_matrix_complete_marginal prs i j (by omega) hj).2

/-- C16 (witness): `prs = [1/3, 1/2]`, the treatment row `r = 3` and the unit `j = 0`. -/
theorem C16_gen_pr_matrix_complete_marginal_consistency_witness :
    ∃ a b d : ℚ, (gen_pr_matrix_complete (VectorXd.ofList [1 / 3, 1 / 2])).coeff 3 0 = some a ∧
      (gen_pr_matrix_complete (VectorXd.ofList [1 / 3, 1 / 2])).coeff 3 2 = some b ∧
      (gen_pr_matrix_complete (VectorXd.ofList [1 / 3, 1 / 2])).coeff 3 3 = some d ∧
      a + b = d :=
  C16_gen_pr_matrix_complete_marginal_consistency (VectorXd.ofList [1 / 3, 1 / 2]) 3 0
    (by decide) (by decide)

/-- C17: for every `prs` of length `n ≥ 2`, the two cross blocks of
`M = gen_pr_matrix_complete prs` are transposes of each other (`M[i+n][j] = M[j][i+n]`
for all `i, j < n`), and the whole `2n × 2n` matrix is symmetric if and only if all
entries of `prs` are equal. -/
theorem C17_gen_pr_matrix_complete_symmetry (prs : VectorXd) (_hn : 2 ≤ prs.size) :
    (∀ i j : Nat, i < prs.size → j < prs.size →
      (gen_pr_matrix_complete prs).coeff (i + prs.size) j =
        (gen_pr_matrix_complete prs).coeff j (i + prs.size)) ∧
    ((∀ r c : Nat, r < 2 * prs.size → c < 2 * prs.size →
        (gen_pr_matrix_complete prs).coeff r c = (gen_pr_matrix_complete prs).coeff c r) ↔
      (∀ i j : Nat, i < prs.size → j < prs.size → prs.coeff i = prs.coeff j)) := by
  refine ⟨gen_pr_matrix_complete_cross_transpose prs, ?_, ?_⟩
  · intro hsym i j hi hj
    exact gen_pr_matrix_complete_symm_imp_eq prs i j hi hj
      (hsym i j (by omega) (by omega))
  · intro heq r c hr hc
    by_cases hrn : r < prs.size
    · by_cases hcn : c < prs.size
      · exact (gen_pr_matrix_complete_same_arm_symm prs r c hrn hcn (heq r c hrn hcn)).1
      · obtain ⟨j, rfl⟩ : ∃ j, c = j + prs.size := ⟨c - prs.size, by omega⟩
        exact (gen_pr_matrix_complete_cross_transpose prs j r (by omega) hrn).symm
    · obtain ⟨i, rfl⟩ : ∃ i, r = i + prs.size := ⟨r - prs.size, by omega⟩
      by_cases hcn : c < prs.size
      · exact gen_pr_matrix_complete_cross_transpose prs i c (by omega) hcn
      · obtain ⟨j, rfl⟩ : ∃ j, c = j + prs.size := ⟨c - prs.size, by omega⟩
        exact (gen_pr_matrix_complete_same_arm_symm prs i j (by omega) (by omega)
          (heq i j (by omega) (by omega))).2

/-- C17 (witness): `prs = [1/3, 1/2]`, the cross cells `(2, 1)` and `(1, 2)`. -/
theorem C17_gen_pr_matrix_complete_symmetry_witness :
    (gen_pr_matrix_complete (VectorXd.ofList [1 / 3, 1 / 2])).coeff 2 1 =
      (gen_pr_matrix_complete (VectorXd.ofList [1 / 3, 1 / 2])).coeff 1 2 :=
  (C17_gen_pr_matrix_complete_symmetry (VectorXd.ofList [1 / 3, 1 / 2]) (by decide)).1 0 1
    (by decide) (by decide)

end HT
